import Mathlib

/-!
Verification of the calendar/screener compiler (`src/app.py`).

The program is a single-file pandas pipeline.  We embed it shallowly:

* a Python string is a list of Unicode code points (`Str := List Nat`);
* a table cell is `Option Str` (`none` stands for a missing value, NaN);
* a DataFrame is a header (list of column names, as Lean `String`s)
  plus a list of rows (each row a list of cells, positionally aligned
  with the header);
* each pandas operation used by `app.py` is modelled as an explicit
  function; operations that can raise (`df[cols]` with a missing label,
  `.str` on a non-Series, merging on a non-unique label, ...) return
  `Except String _`.

All definitions are executable so concrete runs evaluate by `decide`.
-/

namespace CalScreener

/-- A Python string, as its list of Unicode code points. -/
abbrev Str := List Nat

/-- Code points of a Lean string literal (used only to write concrete
values in statements and examples). -/
def codes (s : String) : Str := s.data.map Char.toNat

/-- One table cell: a string value, or a missing value (NaN). -/
abbrev Cell := Option Str

/-- Python `str.lower` on one code point (ASCII letters; the data in
this program is ASCII). -/
def lowerN (n : Nat) : Nat := if 65 ≤ n ∧ n ≤ 90 then n + 32 else n

/-- Python whitespace test used by `str.strip()` (ASCII whitespace). -/
def isSp (n : Nat) : Bool := decide (n = 32 ∨ (9 ≤ n ∧ n ≤ 13))

/-- Python `str.lower`. -/
def pyLower (s : Str) : Str := s.map lowerN

/-- Python `str.strip()`: remove whitespace from both ends. -/
def pyStrip (s : Str) : Str :=
  ((s.dropWhile isSp).reverse.dropWhile isSp).reverse

/-- `Series.astype(str)` on one cell: a missing value (`numpy.nan`)
is converted to the literal string `"nan"`. -/
def astypeStr (c : Cell) : Str :=
  match c with
  | none => codes "nan"
  | some v => v

/-- The join-key derivation of `app.py` line 154/155:
`.astype(str).str.strip().str.lower()` applied to one cell. -/
def emailKey (c : Cell) : Str := pyLower (pyStrip (astypeStr c))

/-- `normalize_text` (`app.py` lines 47-50): missing values pass
through, other values are converted to `str` and stripped. -/
def normalizeText (c : Cell) : Cell :=
  match c with
  | none => none
  | some v => some (pyStrip v)

end CalScreener

namespace CalScreener

/-! ## `best_project_name` (`app.py` lines 57-61)

```python
def best_project_name(name: str) -> str:
    stem = os.path.splitext(os.path.basename(name))[0]
    stem = re.sub(r"(?i)\\bcalendar\\b|\\bcalender\\b|\\bscreener\\b|\\bcopy\\b", "", stem)
    stem = re.sub(r"\\s+", " ", stem).strip(" -_")
    return stem or "Project"
```

The regex patterns are *raw* strings, so `r"\\b"` is the two-character
regex `\` `\` followed by `b`, which matches a literal backslash
followed by the letter `b` — not a word boundary.  Likewise `r"\\s+"`
matches a literal backslash followed by one or more letters `s`.  The
model reproduces this faithfully: the first substitution deletes
case-insensitive occurrences of the literal texts `\bcalendar\b`,
`\bcalender\b`, `\bscreener\b`, `\bcopy\b`; the second replaces a
literal `\` followed by a maximal run of `s` by one space. -/

/-- `os.path.basename`: the part after the last `/` (code 47). -/
def pyBasename (s : Str) : Str :=
  ((s.reverse.takeWhile (fun c => decide (c ≠ 47)))).reverse

/-- Stem part of `os.path.splitext`: cut at the last dot, unless all
characters before that dot are dots (leading-dot files keep their
name). -/
def splitextStem (b : Str) : Str :=
  match (((List.range b.length).filter
      (fun i => decide (b.getD i 0 = 46)))).getLast? with
  | none => b
  | some i => if (b.take i).all (fun c => decide (c = 46)) then b else b.take i

/-- `re.sub(pats, "", s)` for an alternation of literal patterns,
case-insensitively: scan left to right, at each position try the
alternatives in order; on a match delete it and continue after it
(zero-width patterns would advance by one, as `re.sub` does).
The first argument is fuel (structural recursion; every step consumes
at least one character, so `s.length` fuel always suffices). -/
def subLitsF (pats : List Str) : Nat → Str → Str
  | 0, s => s
  | _ + 1, [] => []
  | fuel + 1, c :: rest =>
    match (pats.find? (fun p =>
        (pyLower p).isPrefixOf (pyLower (c :: rest)))) with
    | some p => subLitsF pats fuel ((c :: rest).drop (max p.length 1))
    | none => c :: subLitsF pats fuel rest

/-- Entry point of the literal-alternation `re.sub` model. -/
def subLits (pats : List Str) (s : Str) : Str := subLitsF pats s.length s

/-- `re.sub(r"\\s+", " ", s)`: replace a literal backslash (code 92)
followed by a maximal nonempty run of `s` (code 115) by a space.
Fuel-based, as for `subLitsF`. -/
def subBackslashSF : Nat → Str → Str
  | 0, s => s
  | _ + 1, [] => []
  | fuel + 1, c :: rest =>
    if c = 92 ∧ rest.head? = some 115 then
      32 :: subBackslashSF fuel (rest.dropWhile (fun d => decide (d = 115)))
    else
      c :: subBackslashSF fuel rest

/-- Entry point of the `re.sub(r"\\s+", " ")` model. -/
def subBackslashS (s : Str) : Str := subBackslashSF s.length s

/-- `str.strip(" -_")`: remove spaces, hyphens, underscores (codes
32, 45, 95) from both ends. -/
def stripDashUnd (s : Str) : Str :=
  let bad : Nat → Bool := fun c => decide (c = 32 ∨ c = 45 ∨ c = 95)
  ((s.dropWhile bad).reverse.dropWhile bad).reverse

/-- The four literal texts the first `re.sub` of `best_project_name`
deletes (each contains real backslashes, see above). -/
def bpnPats : List Str :=
  [codes "\\bcalendar\\b", codes "\\bcalender\\b",
   codes "\\bscreener\\b", codes "\\bcopy\\b"]

/-- `best_project_name` (`app.py` lines 57-61), modelled from the
source including its raw-string regexes. -/
def bestProjectName (name : Str) : Str :=
  let stem := splitextStem (pyBasename name)
  let stem2 := subLits bpnPats stem
  let stem3 := stripDashUnd (subBackslashS stem2)
  if stem3 = [] then codes "Project" else stem3

end CalScreener

namespace CalScreener

example : bestProjectName (codes "calendar.xlsx") = codes "calendar" := by decide

example : bestProjectName (codes "Screener_Copy - Acme Project.xlsx")
    = codes "Screener_Copy - Acme Project" := by decide

example : emailKey (some (codes "  A@B.com ")) = codes "a@b.com" := by decide

end CalScreener

namespace CalScreener

/-! ## The DataFrame model -/

/-- A DataFrame: column names plus rows; every row is positionally
aligned with the header. -/
structure Table where
  header : List String
  rows : List (List Cell)
deriving Repr, DecidableEq

/-- Python `str.lower` on a column name (ASCII letters; `Char.toLower`
lowers exactly the range A-Z, as the headers here are ASCII). -/
def lowerS (s : String) : String := String.mk (s.data.map Char.toLower)

/-- Python substring test `needle in hay`. -/
def strContains (hay needle : String) : Bool :=
  (List.range (hay.data.length + 1)).any
    (fun i => needle.data.isPrefixOf (hay.data.drop i))

/-- Python truthiness of the `found` variable of `coalesce_columns`
(`None` and the empty string are falsy). -/
def truthy (o : Option String) : Bool :=
  match o with
  | none => false
  | some s => decide (s ≠ "")

/-! ## `coalesce_columns` (`app.py` lines 22-45)

```python
def coalesce_columns(df, targets):
    out = df.copy()
    existing_lower = {str(c).lower(): c for c in out.columns}
    for target, candidates in targets.items():
        found = None
        for cand in candidates:
            ckey = cand.lower()
            if ckey in existing_lower:
                found = existing_lower[ckey]
                break
        if not found:
            for c in out.columns:
                for cand in candidates:
                    if cand.lower() in str(c).lower():
                        found = c
                        break
                if found:
                    break
        if found:
            if found != target:
                out = out.rename(columns={found: target})
        else:
            out[target] = pd.NA
    return out
```

`existing_lower` is computed once, from the *original* header, and is
never refreshed after a rename; the substring fallback, by contrast,
iterates over the *current* columns.  Both are modelled exactly. -/

/-- The dict comprehension of line 24: lowercased name → name, later
columns overwriting earlier ones with the same lowercased name. -/
def staleLookup (origCols : List String) (k : String) : Option String :=
  (origCols.filter (fun c => lowerS c = k)).getLast?

/-- Exact phase (lines 26-31): first candidate whose lowercase form is
a key of the stale dict; result is the dict's value. -/
def findExact (origCols : List String) : List String → Option String
  | [] => none
  | cand :: rest =>
    match staleLookup origCols (lowerS cand) with
    | some c => some c
    | none => findExact origCols rest

/-- Substring phase (lines 32-39): iterate the *current* columns; a
column matches when any candidate's lowercase form is a substring of
its lowercase form.  `found` is carried in (it can be a falsy `""`
left over from the exact phase, in which case scanning continues). -/
def findSub (cands : List String) (found : Option String) : List String → Option String
  | [] => found
  | c :: rest =>
    let found2 :=
      if cands.any (fun cand => strContains (lowerS c) (lowerS cand)) then some c
      else found
    if truthy found2 then found2 else findSub cands found2 rest

/-- `df.rename(columns={f: g})`: every column named `f` is renamed;
cell values are untouched. -/
def renameCol (t : Table) (f g : String) : Table :=
  { t with header := t.header.map (fun c => if c = f then g else c) }

/-- `out[target] = pd.NA`: overwrite every column labelled `target`
with missing values if the label exists, otherwise append a new
all-null column. -/
def setColNA (t : Table) (g : String) : Table :=
  if t.header.contains g then
    { t with rows := t.rows.map (fun r =>
        (t.header.zip r).map (fun p => if p.1 = g then none else p.2)) }
  else
    { header := t.header ++ [g], rows := t.rows.map (fun r => r ++ [none]) }

/-- The value of `found` after lines 26-39 for one target: the exact
phase first, then (when falsy) the substring phase over the current
columns. -/
def foundFor (origCols : List String) (hdr : List String)
    (cands : List String) : Option String :=
  let ex := findExact origCols cands
  if truthy ex then ex else findSub cands ex hdr

/-- Body of the `for target, candidates in targets.items()` loop. -/
def coalesceStep (origCols : List String) (t : Table)
    (target : String) (cands : List String) : Table :=
  let found := foundFor origCols t.header cands
  if truthy found then
    if found.getD "" ≠ target then renameCol t (found.getD "") target else t
  else
    setColNA t target

/-- `coalesce_columns` (`app.py` lines 22-45). -/
def coalesce (t : Table) (targets : List (String × List String)) : Table :=
  targets.foldl (fun acc p => coalesceStep t.header acc p.1 p.2) t

/-! ## The canonical schemas and column lists (`app.py` lines 127-152, 167) -/

/-- `cal_targets` (lines 127-135); Python dicts preserve insertion
order, so a list of pairs is faithful. -/
def calTargets : List (String × List String) :=
  [("User name", ["User name", "User Name", "Tester Name", "Tester"]),
   ("EMAIL", ["EMAIL", "Email", "Tester Email", "Participant Email"]),
   ("Start Time", ["Start Time", "Start Time (", "StartTime"]),
   ("End Time", ["End Time", "End Time (", "EndTime"]),
   ("Task Link", ["Task Link", "Task URL", "TaskLink"]),
   ("Moderator Link", ["Moderator Link", "Moderator URL", "ModeratorLink"]),
   ("Observers Public Link",
    ["Observers Public Link", "Observers Link", "Observer Link", "Public Observer Link"])]

/-- `keep_calendar` (line 137). -/
def keepCalendar : List String :=
  ["User name", "EMAIL", "Start Time", "End Time", "Task Link",
   "Moderator Link", "Observers Public Link"]

/-- `scr_targets` (lines 140-147). -/
def scrTargets : List (String × List String) :=
  [("TESTER", ["TESTER", "Tester", "User name", "User Name", "Tester Name"]),
   ("EMAIL", ["EMAIL", "Email"]),
   ("DATE", ["DATE", "Date", "Submission Date", "Created At"]),
   ("STATUS", ["STATUS", "Status"]),
   ("ADMIN RATING", ["ADMIN RATING", "Admin Rating"]),
   ("CLIENT RATING", ["CLIENT RATING", "Client Rating"])]

/-- `exclude` (line 150). -/
def screenerExclude : List String :=
  ["TESTER", "EMAIL", "DATE", "STATUS", "ADMIN RATING", "CLIENT RATING"]

/-- `head` (line 167). -/
def headCols : List String :=
  ["User name", "Start Time", "End Time", "Task Link", "Moderator Link",
   "Observers Public Link"]

/-! ## The remaining pandas operations used by the pipeline -/

/-- Positions of all columns carrying a given label. -/
def colPositions (hdr : List String) (n : String) : List Nat :=
  (List.range hdr.length).filter (fun i => hdr.getD i "" = n)

/-- `df[names]` selection: raises `KeyError` when a requested label is
absent; a duplicated label contributes all of its columns, so the
result expands duplicates in list order. -/
def selectCols (t : Table) (names : List String) : Except String Table :=
  if names.all (fun n => t.header.contains n) then
    let poss := (names.map (colPositions t.header)).flatten
    Except.ok { header := poss.map (fun i => t.header.getD i ""),
                rows := t.rows.map (fun r => poss.map (fun i => r.getD i none)) }
  else
    Except.error "KeyError"

/-- `df[name]` used as a Series: `KeyError` when the label is absent;
when it is duplicated, pandas returns a DataFrame and the subsequent
`.str`/element-wise `.apply` use raises, modelled as an error. -/
def singlePos (t : Table) (n : String) : Except String Nat :=
  match colPositions t.header n with
  | [i] => Except.ok i
  | [] => Except.error "KeyError"
  | _ => Except.error "AttributeError"

/-- `df[name] = column`: overwrite every column with that label, or
append the column at the right edge when the label is new. -/
def setColValues (t : Table) (n : String) (vals : List Cell) : Table :=
  if t.header.contains n then
    { t with rows := (t.rows.zip vals).map (fun rv =>
        (t.header.zip rv.1).map (fun p => if p.1 = n then rv.2 else p.2)) }
  else
    { header := t.header ++ [n],
      rows := (t.rows.zip vals).map (fun rv => rv.1 ++ [rv.2]) }

/-- Lines 154/155: `df["EMAIL_key"] = df["EMAIL"].astype(str).str.strip().str.lower()`. -/
def withEmailKey (t : Table) : Except String Table := do
  let i ← singlePos t "EMAIL"
  pure (setColValues t "EMAIL_key"
    (t.rows.map (fun r => some (emailKey (r.getD i none)))))

/-- `df.drop(columns=names)` for all occurrences of the labels (the
pipeline drops `EMAIL_key` with `errors="ignore"` and `EMAIL` only
after checking membership, so plain filtering is faithful). -/
def dropAll (t : Table) (names : List String) : Table :=
  let keep := (List.range t.header.length).filter
    (fun i => !(names.contains (t.header.getD i "")))
  { header := keep.map (fun i => t.header.getD i ""),
    rows := t.rows.map (fun r => keep.map (fun i => r.getD i none)) }

/-- `pd.concat([a, b], axis=1)` for two frames over the same index. -/
def hconcat (a b : Table) : Table :=
  { header := a.header ++ b.header,
    rows := (a.rows.zip b.rows).map (fun rs => rs.1 ++ rs.2) }

/-- Suffixing of overlapping non-key labels done by `pd.merge`
(default suffixes `_x` on the left, `_y` on the right). -/
def suffixHdr (own other : List String) (key suf : String) : List String :=
  own.map (fun n => if n ≠ key ∧ other.contains n then n ++ suf else n)

/-- Row block of an inner merge: for each left row in order, each
right row (in order) whose key cell is equal; the right key cell is
removed.  pandas preserves the left order for `how="inner"`. -/
def mergeRows (lrows rrows : List (List Cell)) (li ri : Nat) : List (List Cell) :=
  (lrows.map (fun lr =>
    (rrows.filter (fun rr => rr.getD ri none = lr.getD li none)).map
      (fun rr => lr ++ rr.eraseIdx ri))).flatten

/-- `pd.merge(l, r, on=key, how="inner")`: the key label must be
unique on both sides (pandas raises otherwise); overlapping other
labels are suffixed `_x`/`_y`. -/
def mergeInner (l r : Table) (key : String) : Except String Table := do
  let li ← match colPositions l.header key with
           | [i] => Except.ok i
           | _ => Except.error "MergeError"
  let ri ← match colPositions r.header key with
           | [i] => Except.ok i
           | _ => Except.error "MergeError"
  let lh := suffixHdr l.header r.header key "_x"
  let rh := suffixHdr r.header l.header key "_y"
  pure { header := lh ++ rh.eraseIdx ri,
         rows := mergeRows l.rows r.rows li ri }

/-- Line 164: `merged["User name"] = merged["User name"].apply(normalize_text)`. -/
def applyNormalizeUser (t : Table) : Except String Table := do
  let i ← singlePos t "User name"
  pure { t with rows := t.rows.map (fun r => r.set i (normalizeText (r.getD i none))) }

/-- Deduplication key of a row: its cells at the subset positions. -/
def dedupKeyAt (poss : List Nat) (r : List Cell) : List Cell :=
  poss.map (fun i => r.getD i none)

/-- Keep-first deduplication over a key function, carrying the set of
keys already seen. -/
def dedupFirstAux (key : List Cell → List Cell) (seen : List (List Cell)) :
    List (List Cell) → List (List Cell)
  | [] => []
  | r :: rest =>
    if key r ∈ seen then dedupFirstAux key seen rest
    else r :: dedupFirstAux key (key r :: seen) rest

/-- Line 165: `merged.drop_duplicates(subset=..., keep="first")`;
raises `KeyError` when a subset label is absent. -/
def dropDupsFirst (t : Table) (subset : List String) : Except String Table :=
  if subset.all (fun n => t.header.contains n) then
    let poss := (subset.map (colPositions t.header)).flatten
    Except.ok { t with rows := dedupFirstAux (dedupKeyAt poss) [] t.rows }
  else
    Except.error "KeyError"

/-- Lines 167-169: fixed head labels first, then the remaining columns
in their existing relative order (`tail` keeps duplicate labels, and
the final selection expands them again, exactly as `merged[head + tail]`
does). -/
def reorderHeadTail (t : Table) : Except String Table :=
  let tail := t.header.filter (fun c => !(headCols.contains c))
  selectCols t (headCols ++ tail)

/-- Python `str.strip()` on a column name. -/
def trimName (s : String) : String :=
  String.mk (((s.data.dropWhile (fun c => isSp c.toNat)).reverse.dropWhile
    (fun c => isSp c.toNat)).reverse)

/-- Lines 113-114: header cells are stripped on load. -/
def stripHeaders (t : Table) : Table :=
  { t with header := t.header.map trimName }

/-- The full compile stage (`app.py` lines 113-169), from the two
parsed tables to the final merged table.  Every pandas call that can
raise is an `Except.error`. -/
def compile (cal scr : Table) : Except String Table := do
  let cal := stripHeaders cal
  let scr := stripHeaders scr
  let calStd := coalesce cal calTargets
  let calSel ← selectCols calStd keepCalendar
  let scrStd := coalesce scr scrTargets
  let answersCols := scrStd.header.filter (fun c => !(screenerExclude.contains c))
  let scrAnswers ← selectCols scrStd answersCols
  let calK ← withEmailKey calSel
  let scrK ← withEmailKey scrStd
  let scrKeyOnly ← selectCols scrK ["EMAIL_key"]
  let rightSide := hconcat scrKeyOnly scrAnswers
  let merged ← mergeInner calK rightSide "EMAIL_key"
  let merged := dropAll merged ["EMAIL_key"]
  let merged := dropAll merged ["EMAIL"]
  let merged2 ← applyNormalizeUser merged
  let merged3 ← dropDupsFirst merged2 ["User name", "Start Time"]
  reorderHeadTail merged3

end CalScreener

namespace CalScreener

/-- Sanity check: the worked example of the specification (§8). -/
example :
    (compile
      { header := ["Tester", "Tester Email", "Start Time", "End Time"],
        rows := [[some (codes "Ann"), some (codes "ann@x.com"),
                  some (codes "2024-01-01T10:00"), some (codes "2024-01-01T10:30")]] }
      { header := ["Email", "Status", "Q1 Rating"],
        rows := [[some (codes "ann@X.com"), some (codes "Completed"),
                  some (codes "5")]] }).toOption
    = some
      { header := ["User name", "Start Time", "End Time", "Task Link",
                   "Moderator Link", "Observers Public Link", "Q1 Rating"],
        rows := [[some (codes "Ann"), some (codes "2024-01-01T10:00"),
                  some (codes "2024-01-01T10:30"), none, none, none,
                  some (codes "5")]] } := by decide

end CalScreener

namespace CalScreener

/-! ## Lemmas about the join-key string functions (for C9) -/

theorem lowerN_idem (n : Nat) : lowerN (lowerN n) = lowerN n := by
  unfold lowerN
  split_ifs <;> omega

theorem isSp_lowerN (n : Nat) : isSp (lowerN n) = isSp n := by
  unfold isSp lowerN
  split_ifs with h
  · rw [decide_eq_decide]
    omega
  · rfl

theorem pyLower_idem (s : Str) : pyLower (pyLower s) = pyLower s := by
  induction s with
  | nil => rfl
  | cons a t ih =>
    simp only [pyLower, List.map_cons, List.cons.injEq] at *
    exact ⟨lowerN_idem a, ih⟩

theorem pyStrip_pyLower (s : Str) : pyStrip (pyLower s) = pyLower (pyStrip s) := by
  have hcomp : isSp ∘ lowerN = isSp := funext isSp_lowerN
  simp only [pyStrip, pyLower]
  rw [List.dropWhile_map, hcomp, ← List.map_reverse, List.dropWhile_map, hcomp,
    ← List.map_reverse]

theorem dropWhile_head_ok {l : List Nat}
    (h : ∀ a, l.head? = some a → isSp a = false) : l.dropWhile isSp = l := by
  cases l with
  | nil => rfl
  | cons a t =>
    have ha := h a rfl
    simp [List.dropWhile_cons, ha]

theorem isSp_head_dropWhile {l : List Nat} {x : Nat}
    (h : (l.dropWhile isSp).head? = some x) : isSp x = false := by
  have H := List.head?_dropWhile_not isSp l
  rw [h] at H
  exact H

theorem dropWhile_isSp_idem (l : List Nat) :
    (l.dropWhile isSp).dropWhile isSp = l.dropWhile isSp :=
  dropWhile_head_ok (fun _ h => isSp_head_dropWhile h)

theorem pyStrip_idem (s : Str) : pyStrip (pyStrip s) = pyStrip s := by
  have h2 : ((s.dropWhile isSp).reverse.dropWhile isSp).dropWhile isSp
      = (s.dropWhile isSp).reverse.dropWhile isSp := dropWhile_isSp_idem _
  have h1 : ((s.dropWhile isSp).reverse.dropWhile isSp).reverse.dropWhile isSp
      = ((s.dropWhile isSp).reverse.dropWhile isSp).reverse := by
    apply dropWhile_head_ok
    intro a ha
    rw [List.head?_reverse] at ha
    have hsuf : (s.dropWhile isSp).reverse.dropWhile isSp
        <:+ (s.dropWhile isSp).reverse := List.dropWhile_suffix isSp
    rcases hsuf with ⟨x, hx⟩
    have hlast : ((s.dropWhile isSp).reverse).getLast? = some a := by
      rw [← hx, List.getLast?_append, ha]
      rfl
    rw [List.getLast?_reverse] at hlast
    exact isSp_head_dropWhile hlast
  unfold pyStrip
  rw [h1, List.reverse_reverse, h2]

/-- C9: the join-key derivation (strip of `astype(str)`, then lower) is
idempotent — reapplying it to its own output is the identity — and
identifies strings differing only in case and surrounding whitespace,
as in the spec's example `"  A@B.com "` vs `"a@b.com"`. -/
theorem claim_C9 :
    (∀ v : Str, emailKey (some (emailKey (some v))) = emailKey (some v))
    ∧ emailKey (some (codes "  A@B.com ")) = emailKey (some (codes "a@b.com")) := by
  constructor
  · intro v
    show pyLower (pyStrip (pyLower (pyStrip v))) = pyLower (pyStrip v)
    rw [pyStrip_pyLower, pyLower_idem, pyStrip_idem]
  · decide

/-- C2: the claimed project-label derivation does not match the code.
The raw-string regexes of `best_project_name` (`r"\\b..."`) match a
literal backslash-`b` text, so the tokens "calendar"/"screener"/"copy"
are never removed from real filenames: `"calendar.xlsx"` yields
`"calendar"` (the claim says `"Project"`) and
`"Screener_Copy - Acme Project.xlsx"` yields the whole stem (the claim
says `"Acme Project"`). -/
theorem claim_C2_code_eval :
    bestProjectName (codes "calendar.xlsx") = codes "calendar"
    ∧ bestProjectName (codes "Screener_Copy - Acme Project.xlsx")
        = codes "Screener_Copy - Acme Project"
    ∧ codes "calendar" ≠ codes "Project"
    ∧ codes "Screener_Copy - Acme Project" ≠ codes "Acme Project" := by
  refine ⟨by decide, by decide, by decide, by decide⟩

/-- C5: the merge of line 157 is a true inner join: the number of
output rows is the sum, over the left rows, of the number of right
rows sharing the key cell (so a key carried by `k` right rows
duplicates each matching left row `k` times), and a left row matching
no right key contributes nothing at all. -/
theorem claim_C5 :
    (∀ (L R : List (List Cell)) (li ri : Nat),
        (mergeRows L R li ri).length
          = (L.map (fun lr =>
              (R.filter (fun rr => rr.getD ri none = lr.getD li none)).length)).sum)
    ∧ (∀ (L R : List (List Cell)) (li ri : Nat) (lr : List Cell),
        (∀ rr ∈ R, rr.getD ri none ≠ lr.getD li none) →
        mergeRows (lr :: L) R li ri = mergeRows L R li ri) := by
  constructor
  · intro L R li ri
    simp [mergeRows, List.map_map, Function.comp_def]
  · intro L R li ri lr h
    have hnil : R.filter (fun rr => rr.getD ri none = lr.getD li none) = [] := by
      rw [List.filter_eq_nil_iff]
      intro rr hrr
      simpa using h rr hrr
    simp only [mergeRows, List.map_cons, List.flatten_cons, hnil, List.map_nil,
      List.nil_append]

/-- C5 witness: one screener row whose key matches two calendar rows
with distinct Start Times yields exactly two joined rows, and a
calendar row matching nothing contributes no row. -/
theorem claim_C5_witness :
    (mergeRows
        [[some (codes "Ann"), some (codes "a@x.com"), some (codes "10:00")],
         [some (codes "Ann"), some (codes "a@x.com"), some (codes "11:00")]]
        [[some (codes "a@x.com"), some (codes "5")]] 1 0).length = 2
    ∧ mergeRows [[some (codes "Bob"), some (codes "b@x.com"), some (codes "9:00")]]
        [[some (codes "a@x.com"), some (codes "5")]] 1 0
      = mergeRows [] [[some (codes "a@x.com"), some (codes "5")]] 1 0 := by
  constructor
  · rw [claim_C5.1]
    decide
  · exact claim_C5.2 [] _ 1 0 _ (by decide)

end CalScreener

namespace CalScreener

/-! ## Characterization of keep-first deduplication (for C6) -/

/-- Specification-side predicate: the enumerated row `p` is the first
of its key — its key is outside `seen` and differs from the key of
every earlier row. -/
def freshAt (key : List Cell → List Cell) (seen : List (List Cell))
    (l : List (List Cell)) (p : Nat × List Cell) : Bool :=
  decide (key p.2 ∉ seen ∧ ∀ r ∈ l.take p.1, key r ≠ key p.2)

theorem dedupFirstAux_eq_enum (key : List Cell → List Cell) :
    ∀ (l : List (List Cell)) (seen : List (List Cell)),
    dedupFirstAux key seen l
      = (l.enum.filter (freshAt key seen l)).map Prod.snd := by
  intro l
  induction l with
  | nil =>
    intro seen
    rfl
  | cons r t ih =>
    intro seen
    rw [List.enum_cons']
    have hcomp : (Prod.snd ∘ Prod.map (· + 1) (id : List Cell → List Cell))
        = Prod.snd := by
      funext p
      cases p
      rfl
    by_cases hseen : key r ∈ seen
    · have hhead : freshAt key seen (r :: t) (0, r) = false := by
        simp [freshAt, hseen]
      have hcongr : t.enum.filter (freshAt key seen (r :: t) ∘ Prod.map (· + 1) id)
          = t.enum.filter (freshAt key seen t) := by
        apply List.filter_congr
        intro p hp
        obtain ⟨i, x⟩ := p
        simp only [Function.comp_apply, freshAt, Prod.map_apply, id_eq]
        rw [decide_eq_decide]
        rw [List.take_succ_cons, List.forall_mem_cons]
        constructor
        · rintro ⟨hns, _, hall⟩
          exact ⟨hns, hall⟩
        · rintro ⟨hns, hall⟩
          refine ⟨hns, ?_, hall⟩
          intro heq
          exact hns (heq ▸ hseen)
      rw [List.filter_cons, hhead]
      simp only [Bool.false_eq_true, if_false]
      rw [List.filter_map, List.map_map, hcomp, hcongr]
      have hstep : dedupFirstAux key seen (r :: t) = dedupFirstAux key seen t := by
        simp only [dedupFirstAux, if_pos hseen]
      rw [hstep]
      exact ih seen
    · have hhead : freshAt key seen (r :: t) (0, r) = true := by
        simp [freshAt, hseen]
      have hcongr : t.enum.filter (freshAt key seen (r :: t) ∘ Prod.map (· + 1) id)
          = t.enum.filter (freshAt key (key r :: seen) t) := by
        apply List.filter_congr
        intro p hp
        obtain ⟨i, x⟩ := p
        simp only [Function.comp_apply, freshAt, Prod.map_apply, id_eq]
        rw [decide_eq_decide]
        rw [List.take_succ_cons, List.forall_mem_cons, List.mem_cons]
        constructor
        · rintro ⟨hns, hr, hall⟩
          refine ⟨?_, hall⟩
          intro hmem
          rcases hmem with hmem | hmem
          · exact hr hmem.symm
          · exact hns hmem
        · rintro ⟨hns, hall⟩
          refine ⟨fun hmem => hns (Or.inr hmem), ?_, hall⟩
          intro heq
          exact hns (Or.inl heq.symm)
      rw [List.filter_cons, hhead]
      simp only [if_true]
      rw [List.map_cons]
      rw [List.filter_map, List.map_map, hcomp, hcongr]
      have hstep : dedupFirstAux key seen (r :: t)
          = r :: dedupFirstAux key (key r :: seen) t := by
        simp only [dedupFirstAux, if_neg hseen]
      rw [hstep]
      exact congrArg (r :: ·) (ih (key r :: seen))

/-- C6: keep-first deduplication (line 165) returns exactly the rows
whose key (the cells at the subset positions, i.e. the
(User name, Start Time) pair) differs from that of every earlier row,
each kept row carried over verbatim (all other column values
unchanged), in the original row order. -/
theorem claim_C6 (poss : List Nat) (rows : List (List Cell)) :
    dedupFirstAux (dedupKeyAt poss) [] rows
      = (rows.enum.filter (fun (p : Nat × List Cell) =>
          decide (∀ r ∈ rows.take p.1,
            dedupKeyAt poss r ≠ dedupKeyAt poss p.2))).map Prod.snd := by
  rw [dedupFirstAux_eq_enum]
  apply congrArg
  apply List.filter_congr
  intro p hp
  simp only [freshAt]
  rw [decide_eq_decide]
  simp

end CalScreener

namespace CalScreener

/-! ## Counterexample runs -/

/-- C1 counterexample: with the program's own calendar schema and the
single input header `"Tester Email"`, the target `"User name"` claims
that column via the substring fallback and renames it; the later
target `"EMAIL"`'s exact match still reads the stale lowercase map, so
its rename is a no-op and no `"EMAIL"` column is created at all — the
target is present zero times, not exactly once. -/
theorem claim_C1_counterexample :
    "EMAIL" ∈ calTargets.map Prod.fst
    ∧ (coalesce { header := ["Tester Email"], rows := [] } calTargets).header.count "EMAIL"
        = 0 := by
  refine ⟨by decide, by decide⟩

/-- C3 counterexample: a calendar row and a screener row whose EMAIL
values are both the empty string receive the same join key `""` and do
match, producing one inner-join row instead of being excluded.  (A
missing EMAIL behaves the same way through `astype(str)`, which turns
NaN into the literal string `"nan"`.) -/
theorem claim_C3_counterexample :
    ((compile
      { header := ["User name", "EMAIL", "Start Time", "End Time", "Task Link",
                   "Moderator Link", "Observers Public Link"],
        rows := [[some (codes "Ann"), some (codes ""), some (codes "10:00"),
                  some (codes "10:30"), none, none, none]] }
      { header := ["EMAIL", "Q1"],
        rows := [[some (codes ""), some (codes "yes")]] }).toOption.map
        (fun t => t.rows.length)) = some 1 := by
  decide

/-- C4 counterexample: a parseable calendar whose only header is
`"Tester Email"` loses its `"EMAIL"` column in the normalizer (see the
C1 counterexample), so the selection `cal_std[keep_calendar]` raises
`KeyError` — the compile stage itself fails after parsing succeeded,
rather than absorbing the problem into the output's shape. -/
theorem claim_C4_counterexample :
    (compile { header := ["Tester Email"], rows := [[some (codes "a@x.com")]] }
      { header := ["EMAIL"], rows := [[some (codes "a@x.com")]] }).toOption
      = none := by
  decide

/-- C8 counterexample: calendar headers `"End Time"` and `"end time"`
both end up labelled `"End Time"`, and the final selection
`merged[head + tail]` expands the duplicated head label in place, so
the output column order is not the fixed head sequence followed by the
remaining (answer) columns. -/
theorem claim_C8_counterexample :
    ((compile { header := ["End Time", "end time"], rows := [] }
        { header := ["EMAIL"], rows := [] }).toOption.map Table.header)
      = some ["User name", "Start Time", "End Time", "End Time", "Task Link",
              "Moderator Link", "Observers Public Link"]
    ∧ (["User name", "Start Time", "End Time", "End Time", "Task Link",
        "Moderator Link", "Observers Public Link"]
        ≠ headCols ++ (["User name", "Start Time", "End Time", "End Time",
            "Task Link", "Moderator Link", "Observers Public Link"].filter
          (fun c => !(headCols.contains c)))) := by
  refine ⟨by decide, by decide⟩

/-- C10 counterexample: when a target (here `"X"`, with alias list
`["Q"]`) matches nothing but an input column already bears the
target's name, `out[target] = pd.NA` overwrites that column, so a
carried-over column's cell values are not preserved. -/
theorem claim_C10_counterexample :
    (coalesce { header := ["X"], rows := [[some (codes "v")]] } [("X", ["Q"])]).header
        = ["X"]
    ∧ (coalesce { header := ["X"], rows := [[some (codes "v")]] } [("X", ["Q"])]).rows
        = [[none]]
    ∧ [[(none : Cell)]] ≠ [[some (codes "v")]] := by
  refine ⟨by decide, by decide, by decide⟩

end CalScreener

namespace CalScreener

/-! ## Frame properties of `coalesce_columns` (for C10) -/

/-- One target's step is "overwrite-free" when either a column is
found (the step only renames) or the target's name is not already a
column (the `out[target] = pd.NA` assignment appends rather than
overwriting). -/
def coalesceStepSafe (origCols : List String) (hdr : List String)
    (target : String) (cands : List String) : Bool :=
  truthy (foundFor origCols hdr cands) || !(hdr.contains target)

/-- All steps of a `coalesce_columns` run are overwrite-free. -/
def coalesceSafeAux (origCols : List String) (acc : Table) :
    List (String × List String) → Bool
  | [] => true
  | (tg, cands) :: rest =>
    coalesceStepSafe origCols acc.header tg cands
      && coalesceSafeAux origCols (coalesceStep origCols acc tg cands) rest

/-- Decidable side condition of the amended C10: no unmatched target
shares its name with a column present at its turn. -/
def coalesceSafe (t : Table) (ts : List (String × List String)) : Bool :=
  coalesceSafeAux t.header t ts

theorem coalesceStep_truthy {origCols : List String} {t : Table}
    {target : String} {cands : List String}
    (h : truthy (foundFor origCols t.header cands) = true) :
    (coalesceStep origCols t target cands).rows = t.rows
    ∧ (coalesceStep origCols t target cands).header.length = t.header.length := by
  constructor
  · simp only [coalesceStep, h, if_true]
    split <;> simp [renameCol]
  · simp only [coalesceStep, h, if_true]
    split <;> simp [renameCol]

theorem coalesceStep_append {origCols : List String} {t : Table}
    {target : String} {cands : List String}
    (h : truthy (foundFor origCols t.header cands) = false)
    (h2 : t.header.contains target = false) :
    coalesceStep origCols t target cands
      = { header := t.header ++ [target],
          rows := t.rows.map (fun r => r ++ [none]) } := by
  simp only [coalesceStep, h, Bool.false_eq_true, if_false, setColNA, h2]

theorem coalesceStep_rowslen (origCols : List String) (t : Table)
    (target : String) (cands : List String) :
    (coalesceStep origCols t target cands).rows.length = t.rows.length := by
  simp only [coalesceStep, setColNA]
  split
  · split <;> simp [renameCol]
  · split <;> simp

theorem foldl_coalesceStep_rowslen (origCols : List String) :
    ∀ (ts : List (String × List String)) (acc : Table),
    (ts.foldl (fun a p => coalesceStep origCols a p.1 p.2) acc).rows.length
      = acc.rows.length := by
  intro ts
  induction ts with
  | nil =>
    intro acc
    rfl
  | cons p rest ih =>
    intro acc
    rw [List.foldl_cons, ih]
    exact coalesceStep_rowslen origCols acc p.1 p.2

theorem coalesce_frame (origCols : List String) :
    ∀ (ts : List (String × List String)) (acc : Table),
    coalesceSafeAux origCols acc ts = true →
    ∃ k, (ts.foldl (fun a p => coalesceStep origCols a p.1 p.2) acc).header.length
          = acc.header.length + k
      ∧ (ts.foldl (fun a p => coalesceStep origCols a p.1 p.2) acc).rows
          = acc.rows.map (fun r => r ++ List.replicate k none) := by
  intro ts
  induction ts with
  | nil =>
    intro acc _
    refine ⟨0, by simp, ?_⟩
    simp
  | cons p rest ih =>
    intro acc hsafe
    obtain ⟨tg, cands⟩ := p
    simp only [coalesceSafeAux, Bool.and_eq_true] at hsafe
    obtain ⟨h1, h2⟩ := hsafe
    rw [List.foldl_cons]
    by_cases hf : truthy (foundFor origCols acc.header cands) = true
    · obtain ⟨k, hk1, hk2⟩ := ih (coalesceStep origCols acc tg cands) h2
      refine ⟨k, ?_, ?_⟩
      · rw [hk1, (coalesceStep_truthy hf).2]
      · rw [hk2, (coalesceStep_truthy hf).1]
    · have hf2 : truthy (foundFor origCols acc.header cands) = false := by
        simpa using hf
      have hcontains : acc.header.contains tg = false := by
        simp only [coalesceStepSafe, hf2, Bool.false_or, Bool.not_eq_true'] at h1
        exact h1
      have happ := coalesceStep_append hf2 hcontains
      obtain ⟨k, hk1, hk2⟩ := ih (coalesceStep origCols acc tg cands) h2
      refine ⟨k + 1, ?_, ?_⟩
      · rw [hk1, happ]
        simp only [List.length_append, List.length_cons, List.length_nil]
        omega
      · rw [hk2, happ]
        simp only [List.map_map]
        apply List.map_congr_left
        intro r _
        simp only [Function.comp_apply, List.append_assoc, List.singleton_append,
          ← List.replicate_succ]

/-- C10 (amended): `coalesce_columns` always preserves the number of
rows; and provided no unmatched target shares its name with an
existing column (`coalesceSafe`) every output row is the input row
with one trailing null per synthesized column — so carried-over cell
values (renamed or not) are unchanged and synthesized columns are
entirely null.  Without the proviso an unmatched target's
`out[target] = pd.NA` overwrites the same-named existing column (see
the C10 counterexample). -/
theorem claim_C10_amended (t : Table) (ts : List (String × List String)) :
    (coalesce t ts).rows.length = t.rows.length
    ∧ (coalesceSafe t ts = true →
        (coalesce t ts).rows = t.rows.map (fun r =>
          r ++ List.replicate ((coalesce t ts).header.length - t.header.length) none)) := by
  have hc : coalesce t ts
      = ts.foldl (fun a p => coalesceStep t.header a p.1 p.2) t := rfl
  constructor
  · rw [hc]
    exact foldl_coalesceStep_rowslen t.header ts t
  · intro hsafe
    obtain ⟨k, hk1, hk2⟩ := coalesce_frame t.header ts t hsafe
    rw [← hc] at hk1 hk2
    rw [hk2, hk1]
    simp

/-- C10 amended witness: a concrete overwrite-free run — one input
column renamed, six targets synthesized as trailing nulls, the row
count and carried value untouched. -/
theorem claim_C10_amended_witness :
    coalesceSafe { header := ["Tester"], rows := [[some (codes "Ann")]] } calTargets = true
    ∧ (coalesce { header := ["Tester"], rows := [[some (codes "Ann")]] } calTargets).rows
      = ({ header := ["Tester"], rows := [[some (codes "Ann")]] } : Table).rows.map
          (fun r => r ++ List.replicate
            ((coalesce { header := ["Tester"], rows := [[some (codes "Ann")]] }
                calTargets).header.length
              - ({ header := ["Tester"], rows := [[some (codes "Ann")]] } : Table).header.length)
            none) :=
  ⟨by decide,
   (claim_C10_amended { header := ["Tester"], rows := [[some (codes "Ann")]] }
      calTargets).2 (by decide)⟩

end CalScreener

namespace CalScreener

/-! ## Header characterizations of the selection-style operations -/

theorem range_filter_getD (pred : String → Bool) :
    ∀ hdr : List String,
    ((List.range hdr.length).filter (fun i => pred (hdr.getD i ""))).map
      (fun i => hdr.getD i "") = hdr.filter pred := by
  intro hdr
  induction hdr with
  | nil => rfl
  | cons h t ih =>
    have hcmp : ((fun i => (h :: t).getD i "") ∘ Nat.succ) = (fun i => t.getD i "") := by
      funext i
      rfl
    have hcmp2 : ((fun i => pred ((h :: t).getD i "")) ∘ Nat.succ)
        = (fun i => pred (t.getD i "")) := by
      funext i
      rfl
    rw [List.length_cons, List.range_succ_eq_map, List.filter_cons, List.filter_map,
      hcmp2]
    simp only [List.getD_cons_zero]
    by_cases hp : pred h = true
    · rw [if_pos hp, List.map_cons, List.map_map, hcmp, List.filter_cons, if_pos hp]
      simp only [List.getD_cons_zero]
      rw [ih]
    · rw [if_neg hp, List.map_map, hcmp, List.filter_cons, if_neg hp, ih]

theorem colPositions_map_getD (hdr : List String) (n : String) :
    (colPositions hdr n).map (fun i => hdr.getD i "")
      = hdr.filter (fun c => decide (c = n)) := by
  exact range_filter_getD (fun c => decide (c = n)) hdr

theorem filter_eq_replicate_count (n : String) :
    ∀ hdr : List String,
    hdr.filter (fun c => decide (c = n)) = List.replicate (hdr.count n) n := by
  intro hdr
  induction hdr with
  | nil => rfl
  | cons h t ih =>
    by_cases hh : h = n
    · subst hh
      simp [List.filter_cons, List.count_cons, ih, List.replicate_succ]
    · simp [List.filter_cons, List.count_cons, hh, ih]

theorem colPositions_length (hdr : List String) (n : String) :
    (colPositions hdr n).length = hdr.count n := by
  have h := congrArg List.length (colPositions_map_getD hdr n)
  rw [List.length_map, filter_eq_replicate_count, List.length_replicate] at h
  exact h

theorem colPositions_getD_eq (hdr : List String) (n : String) :
    ∀ i ∈ colPositions hdr n, hdr.getD i "" = n := by
  intro i hi
  have := List.of_mem_filter hi
  simpa using this

theorem mem_of_count_one {hdr : List String} {n : String}
    (h : hdr.count n = 1) : n ∈ hdr := by
  by_contra hmem
  rw [List.count_eq_zero_of_not_mem hmem] at h
  omega

theorem flatten_map_singleton (names : List String) :
    (names.map (fun n => [n])).flatten = names := by
  induction names with
  | nil => rfl
  | cons a l ih => simp_all

/-- When every requested name occurs, selection succeeds and its
header is the requested names with each expanded to its occurrences. -/
theorem selectCols_ok_header (t : Table) (names : List String)
    (hmem : ∀ n ∈ names, n ∈ t.header) :
    selectCols t names = Except.ok
      { header := ((names.map (colPositions t.header)).flatten).map
          (fun i => t.header.getD i ""),
        rows := t.rows.map (fun r =>
          ((names.map (colPositions t.header)).flatten).map (fun i => r.getD i none)) } := by
  have hall : names.all (fun n => t.header.contains n) = true := by
    rw [List.all_eq_true]
    intro n hn
    simpa using hmem n hn
  simp only [selectCols, hall, if_true]

theorem selectCols_count_one_header (t : Table) (names : List String)
    (hone : ∀ n ∈ names, t.header.count n = 1) :
    (selectCols t names).toOption.map Table.header = some names := by
  have hmem : ∀ n ∈ names, n ∈ t.header := fun n hn => mem_of_count_one (hone n hn)
  rw [selectCols_ok_header t names hmem]
  simp only [Except.toOption, Option.map_some]
  rw [List.map_flatten, List.map_map]
  have hpt : names.map ((List.map (fun i => t.header.getD i "")) ∘ colPositions t.header)
      = names.map (fun n => [n]) := by
    apply List.map_congr_left
    intro n hn
    simp only [Function.comp_apply]
    rw [colPositions_map_getD, filter_eq_replicate_count, hone n hn]
    rfl
  rw [hpt, flatten_map_singleton]
  rfl

end CalScreener

namespace CalScreener

/-- C8 (amended): provided the merged table's column labels are
pairwise distinct and every head label is present (the normal case —
the pipeline puts each head label in the merged frame once), the
reorder step of lines 167-169 yields exactly the fixed head sequence
followed by all remaining columns in their existing relative order.
When a head label is duplicated, the final selection expands the
duplicate in place instead (see the C8 counterexample). -/
theorem claim_C8_amended (t : Table)
    (hnd : t.header.Nodup)
    (hhead : ∀ n ∈ headCols, n ∈ t.header) :
    (reorderHeadTail t).toOption.map Table.header
      = some (headCols ++ t.header.filter (fun c => !(headCols.contains c))) := by
  apply selectCols_count_one_header
  intro n hn
  rcases List.mem_append.mp hn with hn | hn
  · exact List.count_eq_one_of_mem hnd (hhead n hn)
  · exact List.count_eq_one_of_mem hnd (List.mem_of_mem_filter hn)

/-- C8 amended witness: a merged table with distinct labels — the six
head columns (in scrambled order) plus two answer columns — reorders
to exactly the head sequence followed by the answers in order. -/
theorem claim_C8_amended_witness :
    (reorderHeadTail
      { header := ["Q1", "Start Time", "User name", "End Time", "Task Link",
                   "Moderator Link", "Q2", "Observers Public Link"],
        rows := [] }).toOption.map Table.header
      = some (headCols ++ (["Q1", "Start Time", "User name", "End Time", "Task Link",
          "Moderator Link", "Q2", "Observers Public Link"].filter
            (fun c => !(headCols.contains c)))) :=
  claim_C8_amended
    { header := ["Q1", "Start Time", "User name", "End Time", "Task Link",
                 "Moderator Link", "Q2", "Observers Public Link"], rows := [] }
    (by decide) (by decide)

/-- C3 (amended): a row with empty EMAIL gets the literal join key
`""` and a row with missing EMAIL gets `"nan"` (the `str` conversion
of NaN); such a calendar row is excluded from the inner join exactly
when no screener row carries the same literal key — empty matches
empty and missing matches missing, so null/empty rows are not
unconditionally excluded. -/
theorem claim_C3_amended :
    emailKey (some []) = []
    ∧ emailKey none = codes "nan"
    ∧ (∀ (R : List (List Cell)) (li ri : Nat) (lr : List Cell),
        mergeRows [lr] R li ri = []
          ↔ ∀ rr ∈ R, rr.getD ri none ≠ lr.getD li none) := by
  refine ⟨by decide, by decide, ?_⟩
  intro R li ri lr
  simp only [mergeRows, List.map_cons, List.map_nil, List.flatten_cons,
    List.flatten_nil, List.append_nil, List.map_eq_nil_iff, List.filter_eq_nil_iff]
  constructor
  · intro h rr hrr
    simpa using h rr hrr
  · intro h rr hrr
    simpa using h rr hrr

end CalScreener

namespace CalScreener

/-! ## Column-origin lemmas along the pipeline (for C7) -/

theorem selectCols_mem {t : Table} {names : List String} {t' : Table}
    (h : selectCols t names = Except.ok t') :
    ∀ c ∈ t'.header, c ∈ names ∧ c ∈ t.header := by
  unfold selectCols at h
  split at h
  · rename_i hall
    cases h
    intro c hc
    simp only [List.mem_map] at hc
    obtain ⟨i, hi, hgd⟩ := hc
    rw [List.mem_flatten] at hi
    obtain ⟨ps, hps, hips⟩ := hi
    rw [List.mem_map] at hps
    obtain ⟨n, hn, rfl⟩ := hps
    have hgn := colPositions_getD_eq t.header n i hips
    subst hgd
    rw [hgn]
    refine ⟨hn, ?_⟩
    rw [List.all_eq_true] at hall
    have := hall n hn
    simpa using this
  · cases h

theorem setColValues_mem (t : Table) (n : String) (vals : List Cell) :
    ∀ c ∈ (setColValues t n vals).header, c ∈ t.header ∨ c = n := by
  intro c hc
  unfold setColValues at hc
  split at hc
  · exact Or.inl hc
  · simp only [List.mem_append, List.mem_singleton] at hc
    exact hc

theorem withEmailKey_mem {t t' : Table} (h : withEmailKey t = Except.ok t') :
    ∀ c ∈ t'.header, c ∈ t.header ∨ c = "EMAIL_key" := by
  unfold withEmailKey at h
  cases hs : singlePos t "EMAIL" with
  | error e =>
    rw [hs] at h
    simp [Except.bind] at h
  | ok i =>
    rw [hs] at h
    simp only [Except.bind, pure, Except.pure] at h
    cases h
    exact setColValues_mem t "EMAIL_key" _

theorem dropAll_mem (t : Table) (names : List String) :
    ∀ c ∈ (dropAll t names).header, c ∈ t.header ∧ names.contains c = false := by
  intro c hc
  unfold dropAll at hc
  simp only [List.mem_map] at hc
  obtain ⟨i, hi, hgd⟩ := hc
  have hmemr := List.mem_of_mem_filter hi
  rw [List.mem_range] at hmemr
  have hpred := List.of_mem_filter hi
  constructor
  · rw [← hgd, List.getD_eq_getElem t.header "" hmemr]
    exact List.getElem_mem hmemr
  · rw [← hgd]
    simpa using hpred

theorem mergeInner_mem {l r : Table} {key : String} {m : Table}
    (h : mergeInner l r key = Except.ok m) :
    ∀ c ∈ m.header,
      (∃ n ∈ l.header, c = n ∨ c = n ++ "_x")
      ∨ (∃ n ∈ r.header, c = n ∨ c = n ++ "_y") := by
  unfold mergeInner at h
  simp only [bind, Except.bind, pure, Except.pure] at h
  split at h
  · split at h
    · rename_i li hli ri hri
      cases h
      intro c hc
      simp only [List.mem_append] at hc
      rcases hc with hc | hc
      · left
        unfold suffixHdr at hc
        rw [List.mem_map] at hc
        obtain ⟨n, hn, hni⟩ := hc
        refine ⟨n, hn, ?_⟩
        revert hni
        split
        · intro hni
          exact Or.inr hni.symm
        · intro hni
          exact Or.inl hni.symm
      · right
        have hc2 := List.eraseIdx_subset _ ri hc
        unfold suffixHdr at hc2
        rw [List.mem_map] at hc2
        obtain ⟨n, hn, hni⟩ := hc2
        refine ⟨n, hn, ?_⟩
        revert hni
        split
        · intro hni
          exact Or.inr hni.symm
        · intro hni
          exact Or.inl hni.symm
    · simp at h
  · simp at h

theorem applyNormalizeUser_header {t t' : Table}
    (h : applyNormalizeUser t = Except.ok t') : t'.header = t.header := by
  unfold applyNormalizeUser at h
  cases hs : singlePos t "User name" with
  | error e =>
    rw [hs] at h
    simp [Except.bind] at h
  | ok i =>
    rw [hs] at h
    simp only [Except.bind, pure, Except.pure] at h
    cases h
    rfl

theorem dropDupsFirst_header {t : Table} {subset : List String} {t' : Table}
    (h : dropDupsFirst t subset = Except.ok t') : t'.header = t.header := by
  unfold dropDupsFirst at h
  split at h
  · cases h
    rfl
  · cases h

end CalScreener

namespace CalScreener

theorem bind_ok_inv {α β : Type} {x : Except String α} {f : α → Except String β} {b : β}
    (h : (x >>= f) = Except.ok b) : ∃ a, x = Except.ok a ∧ f a = Except.ok b := by
  cases x with
  | error e => simp [Bind.bind, Except.bind] at h
  | ok a =>
    refine ⟨a, rfl, ?_⟩
    simpa [Bind.bind, Except.bind] using h

theorem getLast_append_x (s : String) : (s ++ "_x").data.getLast? = some 'x' := by
  rw [String.data_append, List.getLast?_append]
  rfl

theorem getLast_append_y (s : String) : (s ++ "_y").data.getLast? = some 'y' := by
  rw [String.data_append, List.getLast?_append]
  rfl

/-- C7: whenever the compile stage succeeds, the final table has no
column named `EMAIL`, and none of the screener's excluded columns
(TESTER, DATE, STATUS, ADMIN RATING, CLIENT RATING) appears among its
columns — only screener answer columns carry through. -/
theorem claim_C7 (cal scr t : Table) (hok : compile cal scr = Except.ok t) :
    "EMAIL" ∉ t.header
    ∧ ∀ n ∈ (["TESTER", "DATE", "STATUS", "ADMIN RATING", "CLIENT RATING"] : List String),
        n ∉ t.header := by
  unfold compile at hok
  obtain ⟨calSel, hsel, hok⟩ := bind_ok_inv hok
  obtain ⟨scrAnswers, hans, hok⟩ := bind_ok_inv hok
  obtain ⟨calK, hcalK, hok⟩ := bind_ok_inv hok
  obtain ⟨scrK, hscrK, hok⟩ := bind_ok_inv hok
  obtain ⟨scrKeyOnly, hkey, hok⟩ := bind_ok_inv hok
  obtain ⟨merged, hmerge, hok⟩ := bind_ok_inv hok
  obtain ⟨m2, hnorm, hok⟩ := bind_ok_inv hok
  obtain ⟨m3, hdedup, hok⟩ := bind_ok_inv hok
  unfold reorderHeadTail at hok
  have hchain : ∀ c ∈ t.header,
      c ∈ (dropAll (dropAll merged ["EMAIL_key"]) ["EMAIL"]).header := by
    intro c hc
    have h1 := (selectCols_mem hok c hc).2
    rw [dropDupsFirst_header hdedup, applyNormalizeUser_header hnorm] at h1
    exact h1
  have horigin : ∀ c ∈ t.header, c ≠ "EMAIL" ∧ c ∈ merged.header := by
    intro c hc
    have h1 := hchain c hc
    have h2 := dropAll_mem _ ["EMAIL"] c h1
    have h3 := dropAll_mem _ ["EMAIL_key"] c h2.1
    refine ⟨?_, h3.1⟩
    have := h2.2
    simpa using this
  constructor
  · intro hmem
    exact (horigin "EMAIL" hmem).1 rfl
  · intro n hn hmem
    have hK : ∀ x ∈ (["TESTER", "DATE", "STATUS", "ADMIN RATING", "CLIENT RATING"] :
        List String), x ∉ keepCalendar ∧ x ≠ "EMAIL_key"
          ∧ x.data.getLast? ≠ some 'x' ∧ x.data.getLast? ≠ some 'y'
          ∧ x ∈ screenerExclude := by decide
    obtain ⟨hnK, hnEk, hnx, hny, hnS⟩ := hK n hn
    have hm := (horigin n hmem).2
    rcases mergeInner_mem hmerge n hm with ⟨m, hmL, hform⟩ | ⟨m, hmR, hform⟩
    · rcases withEmailKey_mem hcalK m hmL with hmSel | hmEk
      · have hmKeep := (selectCols_mem hsel m hmSel).1
        rcases hform with rfl | rfl
        · exact hnK hmKeep
        · exact hnx (getLast_append_x m)
      · rcases hform with rfl | rfl
        · exact hnEk hmEk
        · exact hnx (getLast_append_x m)
    · have hmR2 : m ∈ scrKeyOnly.header ++ scrAnswers.header := hmR
      rcases List.mem_append.mp hmR2 with hmk | hma
      · have := (selectCols_mem hkey m hmk).1
        have hmeq : m = "EMAIL_key" := by simpa using this
        rcases hform with rfl | rfl
        · exact hnEk hmeq
        · exact hny (getLast_append_y m)
      · have hma2 := (selectCols_mem hans m hma).1
        have hexcl := List.of_mem_filter hma2
        rcases hform with rfl | rfl
        · have : (screenerExclude.contains n) = true := by
            simpa using hnS
          rw [this] at hexcl
          simp at hexcl
        · exact hny (getLast_append_y m)

/-- C7 witness: the specification's worked example compiles, and its
output indeed carries neither `EMAIL` nor any excluded screener
column. -/
theorem claim_C7_witness :
    "EMAIL" ∉ (Table.mk
        ["User name", "Start Time", "End Time", "Task Link",
         "Moderator Link", "Observers Public Link", "Q1 Rating"]
        [[some (codes "Ann"), some (codes "2024-01-01T10:00"),
          some (codes "2024-01-01T10:30"), none, none, none,
          some (codes "5")]]).header
    ∧ ∀ n ∈ (["TESTER", "DATE", "STATUS", "ADMIN RATING", "CLIENT RATING"] :
        List String),
        n ∉ (Table.mk
          ["User name", "Start Time", "End Time", "Task Link",
           "Moderator Link", "Observers Public Link", "Q1 Rating"]
          [[some (codes "Ann"), some (codes "2024-01-01T10:00"),
            some (codes "2024-01-01T10:30"), none, none, none,
            some (codes "5")]]).header :=
  claim_C7
    { header := ["Tester", "Tester Email", "Start Time", "End Time"],
      rows := [[some (codes "Ann"), some (codes "ann@x.com"),
                some (codes "2024-01-01T10:00"), some (codes "2024-01-01T10:30")]] }
    { header := ["Email", "Status", "Q1 Rating"],
      rows := [[some (codes "ann@X.com"), some (codes "Completed"),
                some (codes "5")]] }
    (Table.mk
      ["User name", "Start Time", "End Time", "Task Link",
       "Moderator Link", "Observers Public Link", "Q1 Rating"]
      [[some (codes "Ann"), some (codes "2024-01-01T10:00"),
        some (codes "2024-01-01T10:30"), none, none, none,
        some (codes "5")]])
    (by rfl)

end CalScreener

namespace CalScreener

/-! ## Distinctness of the normalized header (for C1) -/

theorem staleLookup_self {origCols : List String} {c : String}
    (horig : (origCols.map lowerS).Nodup) (hc : c ∈ origCols) :
    staleLookup origCols (lowerS c) = some c := by
  unfold staleLookup
  have hinj := List.inj_on_of_nodup_map horig
  have hall : ∀ x ∈ origCols.filter (fun x => lowerS x = lowerS c), x = c := by
    intro x hx
    have hx1 := List.mem_of_mem_filter hx
    have hx2 : lowerS x = lowerS c := by
      have := List.of_mem_filter hx
      simpa using this
    exact hinj hx1 hc hx2
  have hmemf : c ∈ origCols.filter (fun x => lowerS x = lowerS c) := by
    apply List.mem_filter.mpr
    exact ⟨hc, by simp⟩
  have hrep := List.eq_replicate_of_mem hall
  have hnd : (origCols.filter (fun x => lowerS x = lowerS c)).Nodup :=
    (horig.of_map).filter _
  have hlen : (origCols.filter (fun x => lowerS x = lowerS c)).length = 1 := by
    have hge : 0 < (origCols.filter (fun x => lowerS x = lowerS c)).length :=
      List.length_pos_of_mem hmemf
    have hle : (origCols.filter (fun x => lowerS x = lowerS c)).length ≤ 1 := by
      rw [hrep] at hnd
      exact List.nodup_replicate.mp hnd
    omega
  rw [hrep, hlen]
  rfl

theorem foundFor_self (hdr : List String) {origCols : List String}
    {tg : String} {cands : List String}
    (horig : (origCols.map lowerS).Nodup) (hmem : tg ∈ origCols)
    (hhead : cands.head? = some tg) (hne : tg ≠ "") :
    foundFor origCols hdr cands = some tg ∧ truthy (foundFor origCols hdr cands) = true := by
  cases cands with
  | nil => simp at hhead
  | cons c0 rest =>
    have hc0 : c0 = tg := by simpa using hhead
    subst hc0
    have hex : findExact origCols (c0 :: rest) = some c0 := by
      unfold findExact
      rw [staleLookup_self horig hmem]
    have htr : truthy (some c0) = true := by
      simp [truthy, hne]
    have hff : foundFor origCols hdr (c0 :: rest) = some c0 := by
      simp only [foundFor, hex, htr, if_true]
    exact ⟨hff, by rw [hff]; exact htr⟩

theorem rename_nodup {l : List String} {f g : String}
    (hnd : l.Nodup) (hg : g ∉ l) :
    (l.map (fun c => if c = f then g else c)).Nodup := by
  induction l with
  | nil => simp
  | cons a rest ih =>
    rw [List.map_cons, List.nodup_cons]
    rw [List.nodup_cons] at hnd
    have hgr : g ∉ rest := fun hx => hg (List.mem_cons_of_mem a hx)
    refine ⟨?_, ih hnd.2 hgr⟩
    intro hmem
    rw [List.mem_map] at hmem
    obtain ⟨c, hcr, hcim⟩ := hmem
    by_cases hcf : c = f
    · rw [if_pos hcf] at hcim
      by_cases haf : a = f
      · rw [if_pos haf] at hcim
        subst hcf haf
        exact hnd.1 hcr
      · rw [if_neg haf] at hcim
        exact hg (hcim ▸ List.mem_cons_self a rest)
    · rw [if_neg hcf] at hcim
      by_cases haf : a = f
      · rw [if_pos haf] at hcim
        exact hgr (hcim ▸ hcr)
      · rw [if_neg haf] at hcim
        exact hnd.1 (hcim ▸ hcr)

theorem coalesce_nodup_aux (origCols : List String)
    (horig : (origCols.map lowerS).Nodup) :
    ∀ (ts : List (String × List String)) (cur : Table) (processed : List String),
    cur.header.Nodup →
    (∀ c ∈ cur.header, c ∈ origCols ∨ c ∈ processed) →
    (∀ p ∈ ts, p.2.head? = some p.1 ∧ p.1 ≠ "") →
    (processed ++ ts.map Prod.fst).Nodup →
    (ts.foldl (fun a p => coalesceStep origCols a p.1 p.2) cur).header.Nodup := by
  intro ts
  induction ts with
  | nil =>
    intro cur processed hnd _ _ _
    exact hnd
  | cons p rest ih =>
    intro cur processed hnd hmem hts hkeys
    obtain ⟨tg, cands⟩ := p
    obtain ⟨hhead0, hne0⟩ := hts (tg, cands) (List.mem_cons_self _ _)
    have hhead : cands.head? = some tg := hhead0
    have hne : tg ≠ "" := hne0
    have hts' : ∀ q ∈ rest, q.2.head? = some q.1 ∧ q.1 ≠ "" :=
      fun q hq => hts q (List.mem_cons_of_mem _ hq)
    have hkeys' : ((processed ++ [tg]) ++ rest.map Prod.fst).Nodup := by
      rw [List.append_assoc, List.singleton_append]
      simpa using hkeys
    have htgproc : tg ∉ processed := by
      rw [List.nodup_append] at hkeys
      intro hmemp
      exact hkeys.2.2 hmemp (by simp)
    rw [List.foldl_cons]
    by_cases ht : truthy (foundFor origCols cur.header cands) = true
    · by_cases hr : (foundFor origCols cur.header cands).getD "" ≠ tg
      · have htg : tg ∉ cur.header := by
          intro hmemtg
          rcases hmem tg hmemtg with horigm | hproc
          · have hself := (foundFor_self cur.header horig horigm hhead hne).1
            rw [hself] at hr
            simp at hr
          · exact htgproc hproc
        have hstep : coalesceStep origCols cur tg cands
            = renameCol cur ((foundFor origCols cur.header cands).getD "") tg := by
          simp only [coalesceStep, ht, if_true, if_pos hr]
        rw [hstep]
        apply ih (renameCol cur _ tg) (processed ++ [tg])
        · exact rename_nodup hnd htg
        · intro c hc
          simp only [renameCol, List.mem_map] at hc
          obtain ⟨c0, hc0, hcim⟩ := hc
          by_cases hcf : c0 = (foundFor origCols cur.header cands).getD ""
          · rw [if_pos hcf] at hcim
            right
            rw [← hcim]
            simp
          · rw [if_neg hcf] at hcim
            rcases hmem c0 hc0 with ho | hp
            · exact Or.inl (hcim ▸ ho)
            · exact Or.inr (by
                rw [List.mem_append]
                exact Or.inl (hcim ▸ hp))
        · exact hts'
        · exact hkeys'
      · have hstep : coalesceStep origCols cur tg cands = cur := by
          simp only [coalesceStep, ht, if_true, if_neg hr]
        rw [hstep]
        apply ih cur (processed ++ [tg])
        · exact hnd
        · intro c hc
          rcases hmem c hc with ho | hp
          · exact Or.inl ho
          · exact Or.inr (by
              rw [List.mem_append]
              exact Or.inl hp)
        · exact hts'
        · exact hkeys'
    · have ht2 : truthy (foundFor origCols cur.header cands) = false := by
        simpa using ht
      have hstep : coalesceStep origCols cur tg cands = setColNA cur tg := by
        simp only [coalesceStep, ht2, Bool.false_eq_true, if_false]
      rw [hstep]
      by_cases hc : cur.header.contains tg = true
      · have hsame : (setColNA cur tg).header = cur.header := by
          simp only [setColNA, hc, if_true]
        apply ih (setColNA cur tg) (processed ++ [tg])
        · rw [hsame]
          exact hnd
        · intro c hcm
          rw [hsame] at hcm
          rcases hmem c hcm with ho | hp
          · exact Or.inl ho
          · exact Or.inr (by
              rw [List.mem_append]
              exact Or.inl hp)
        · exact hts'
        · exact hkeys'
      · have hc2 : cur.header.contains tg = false := by
          simpa using hc
        have happ : (setColNA cur tg).header = cur.header ++ [tg] := by
          simp only [setColNA, hc2, Bool.false_eq_true, if_false]
        have htgmem : tg ∉ cur.header := by
          intro hx
          rw [show cur.header.contains tg = true by simpa using hx] at hc2
          cases hc2
        apply ih (setColNA cur tg) (processed ++ [tg])
        · rw [happ, List.nodup_append]
          refine ⟨hnd, by simp, ?_⟩
          intro a ha hamem
          have : a = tg := by simpa using hamem
          exact htgmem (this ▸ ha)
        · intro c hcm
          rw [happ, List.mem_append] at hcm
          rcases hcm with hcm | hcm
          · rcases hmem c hcm with ho | hp
            · exact Or.inl ho
            · exact Or.inr (by
                rw [List.mem_append]
                exact Or.inl hp)
          · right
            rw [List.mem_append]
            right
            simpa using hcm
        · exact hts'
        · exact hkeys'

/-- C1 (amended): provided the input headers are pairwise distinct
after lowercasing, every target is a nonempty string listed as its own
first alias (true of both schemas of the program), and the target
names are distinct, each target name occurs at most once as a column
of the normalizer's output — it can still occur zero times, because a
later target's exact match reads the stale lowercase map and its
rename can refer to a column an earlier target has already renamed
away (see the C1 counterexample). -/
theorem claim_C1_amended (t : Table) (ts : List (String × List String))
    (h1 : (t.header.map lowerS).Nodup)
    (h2 : ∀ p ∈ ts, p.2.head? = some p.1 ∧ p.1 ≠ "")
    (h3 : (ts.map Prod.fst).Nodup) :
    ∀ tg ∈ ts.map Prod.fst, (coalesce t ts).header.count tg ≤ 1 := by
  have hnodup : (coalesce t ts).header.Nodup := by
    have hres := coalesce_nodup_aux t.header h1 ts t []
      (h1.of_map) (fun c hc => Or.inl hc) h2 (by simpa using h3)
    exact hres
  intro tg _
  exact List.nodup_iff_count_le_one.mp hnodup tg

/-- C1 amended witness: the program's calendar schema satisfies the
side conditions, and on a well-behaved header every target — e.g.
`EMAIL` — indeed appears at most once. -/
theorem claim_C1_amended_witness :
    (coalesce { header := ["Tester", "Email"], rows := [] } calTargets).header.count
      "EMAIL" ≤ 1 :=
  claim_C1_amended { header := ["Tester", "Email"], rows := [] } calTargets
    (by decide) (by decide) (by decide) "EMAIL" (by decide)

end CalScreener

namespace CalScreener

/-! ## Success conditions of the compile stage (for C4) -/

theorem exists_singleton_of_length_one {α : Type} {l : List α}
    (h : l.length = 1) : ∃ a, l = [a] := by
  cases l with
  | nil => simp at h
  | cons a rest =>
    cases rest with
    | nil => exact ⟨a, rfl⟩
    | cons b r2 => simp at h

theorem contains_eq_false_of_not_mem {l : List String} {a : String}
    (h : a ∉ l) : l.contains a = false := by
  simpa using h

theorem mem_of_contains_eq_true {l : List String} {a : String}
    (h : l.contains a = true) : a ∈ l := by
  simpa using h

theorem selectCols_count_one (t : Table) (names : List String)
    (hone : ∀ n ∈ names, t.header.count n = 1) :
    ∃ t', selectCols t names = Except.ok t' ∧ t'.header = names := by
  have hh := selectCols_count_one_header t names hone
  cases hs : selectCols t names with
  | error e =>
    rw [hs] at hh
    simp [Except.toOption] at hh
  | ok t' =>
    rw [hs] at hh
    simp only [Except.toOption, Option.map] at hh
    exact ⟨t', rfl, Option.some.inj hh⟩

theorem singlePos_ok {t : Table} {n : String} {i : Nat}
    (h : colPositions t.header n = [i]) : singlePos t n = Except.ok i := by
  unfold singlePos
  rw [h]

theorem withEmailKey_ok (t : Table)
    (hone : t.header.count "EMAIL" = 1)
    (hnk : t.header.contains "EMAIL_key" = false) :
    ∃ t', withEmailKey t = Except.ok t'
      ∧ t'.header = t.header ++ ["EMAIL_key"] := by
  have hlen : (colPositions t.header "EMAIL").length = 1 := by
    rw [colPositions_length, hone]
  obtain ⟨i, hi⟩ := exists_singleton_of_length_one hlen
  refine ⟨setColValues t "EMAIL_key"
    (t.rows.map (fun r => some (emailKey (r.getD i none)))), ?_, ?_⟩
  · unfold withEmailKey
    rw [singlePos_ok hi]
    rfl
  · simp only [setColValues, hnk, Bool.false_eq_true, if_false]

theorem suffixHdr_id (own other : List String) (key suf : String)
    (h : ∀ n ∈ own, n ≠ key → other.contains n = false) :
    suffixHdr own other key suf = own := by
  unfold suffixHdr
  have hpt : ∀ n ∈ own, (if n ≠ key ∧ other.contains n then n ++ suf else n) = n := by
    intro n hn
    by_cases hk : n = key
    · rw [if_neg]
      simp [hk]
    · rw [if_neg]
      rw [h n hn hk]
      simp
  calc own.map (fun n => if n ≠ key ∧ other.contains n then n ++ suf else n)
      = own.map id := List.map_congr_left (fun n hn => hpt n hn)
    _ = own := List.map_id own

theorem mergeInner_ok {l r : Table} {key : String}
    (hl : l.header.count key = 1) (hr2 : r.header.count key = 1)
    (hs1 : suffixHdr l.header r.header key "_x" = l.header)
    (hs2 : suffixHdr r.header l.header key "_y" = r.header) :
    ∃ li ri, colPositions l.header key = [li]
      ∧ colPositions r.header key = [ri]
      ∧ mergeInner l r key
        = Except.ok ⟨l.header ++ r.header.eraseIdx ri,
            mergeRows l.rows r.rows li ri⟩ := by
  obtain ⟨li, hli⟩ := exists_singleton_of_length_one
    (by rw [colPositions_length, hl] : (colPositions l.header key).length = 1)
  obtain ⟨ri, hri⟩ := exists_singleton_of_length_one
    (by rw [colPositions_length, hr2] : (colPositions r.header key).length = 1)
  refine ⟨li, ri, hli, hri, ?_⟩
  unfold mergeInner
  rw [hli, hri]
  simp only [bind, Except.bind, pure, Except.pure, hs1, hs2]

theorem applyNormalizeUser_ok (t : Table)
    (hone : t.header.count "User name" = 1) :
    ∃ t', applyNormalizeUser t = Except.ok t' ∧ t'.header = t.header := by
  have hlen : (colPositions t.header "User name").length = 1 := by
    rw [colPositions_length, hone]
  obtain ⟨i, hi⟩ := exists_singleton_of_length_one hlen
  refine ⟨{ t with rows := t.rows.map (fun r => r.set i (normalizeText (r.getD i none))) },
    ?_, rfl⟩
  unfold applyNormalizeUser
  rw [singlePos_ok hi]
  rfl

theorem dropDupsFirst_ok (t : Table)
    (h1 : "User name" ∈ t.header) (h2 : "Start Time" ∈ t.header) :
    ∃ t', dropDupsFirst t ["User name", "Start Time"] = Except.ok t'
      ∧ t'.header = t.header := by
  have hall : (["User name", "Start Time"] : List String).all
      (fun n => t.header.contains n) = true := by
    rw [List.all_eq_true]
    intro n hn
    rcases List.mem_cons.mp hn with rfl | hn2
    · simpa using h1
    · have : n = "Start Time" := by simpa using hn2
      subst this
      simpa using h2
  refine ⟨{ t with
    rows := dedupFirstAux
      (dedupKeyAt ((["User name", "Start Time"].map (colPositions t.header)).flatten))
      [] t.rows }, ?_, rfl⟩
  unfold dropDupsFirst
  rw [hall]
  rfl

theorem reorderHeadTail_ok (t : Table)
    (hmem : ∀ n ∈ headCols, n ∈ t.header) :
    ∃ t', reorderHeadTail t = Except.ok t' := by
  unfold reorderHeadTail
  refine ⟨_, selectCols_ok_header t _ ?_⟩
  intro n hn
  rcases List.mem_append.mp hn with hn | hn
  · exact hmem n hn
  · exact List.mem_of_mem_filter hn

theorem dropAll_header (t : Table) (names : List String) :
    (dropAll t names).header = t.header.filter (fun c => !(names.contains c)) := by
  unfold dropAll
  exact range_filter_getD (fun c => !(names.contains c)) t.header

end CalScreener

namespace CalScreener

/-- C4 (amended): failures other than UnreadableInput are absorbed
only when column resolution is unambiguous.  Concretely, the compile
stage raises no error — so every problem is reflected only in the
output's shape — provided (i) each canonical calendar column resolves
to exactly one column of the normalized calendar, (ii) the normalized
screener has exactly one `EMAIL` column, and (iii) no screener answer
column shares a name with a calendar column or with the internal
`EMAIL_key`.  Otherwise the stage itself can raise (see the C4
counterexample, where a missing canonical column yields a
`KeyError`). -/
theorem claim_C4_amended (cal scr : Table)
    (H1 : ∀ n ∈ keepCalendar,
        (coalesce (stripHeaders cal) calTargets).header.count n = 1)
    (H2 : (coalesce (stripHeaders scr) scrTargets).header.count "EMAIL" = 1)
    (H3 : ∀ a ∈ (coalesce (stripHeaders scr) scrTargets).header.filter
        (fun c => !(screenerExclude.contains c)),
        a ∉ keepCalendar ∧ a ≠ "EMAIL_key") :
    ∃ t, compile cal scr = Except.ok t := by
  obtain ⟨calSel, hsel, hselh⟩ :=
    selectCols_count_one (coalesce (stripHeaders cal) calTargets) keepCalendar H1
  have hansmem : ∀ n ∈ (coalesce (stripHeaders scr) scrTargets).header.filter
      (fun c => !(screenerExclude.contains c)),
      n ∈ (coalesce (stripHeaders scr) scrTargets).header :=
    fun n hn => List.mem_of_mem_filter hn
  obtain ⟨scrAnswers, hans2⟩ : ∃ sa,
      selectCols (coalesce (stripHeaders scr) scrTargets)
        ((coalesce (stripHeaders scr) scrTargets).header.filter
          (fun c => !(screenerExclude.contains c))) = Except.ok sa :=
    ⟨_, selectCols_ok_header _ _ hansmem⟩
  have hansKeep : ∀ c ∈ scrAnswers.header,
      c ∉ keepCalendar ∧ c ≠ "EMAIL_key" ∧ c ∉ screenerExclude := by
    intro c hc
    have hcm := (selectCols_mem hans2 c hc).1
    have h3 := H3 c hcm
    have hfl := List.of_mem_filter hcm
    have hex : c ∉ screenerExclude := by
      intro hmem
      have hct : screenerExclude.contains c = true := by
        simpa using hmem
      rw [hct] at hfl
      simp at hfl
    exact ⟨h3.1, h3.2, hex⟩
  have hckey : calSel.header.contains "EMAIL_key" = false := by
    rw [hselh]
    decide
  have hcema : calSel.header.count "EMAIL" = 1 := by
    rw [hselh]
    decide
  obtain ⟨calK, hcalK, hcalKh⟩ := withEmailKey_ok calSel hcema hckey
  rw [hselh] at hcalKh
  have hskeymem : "EMAIL_key" ∉ (coalesce (stripHeaders scr) scrTargets).header := by
    intro hmem
    have hfm : "EMAIL_key" ∈ (coalesce (stripHeaders scr) scrTargets).header.filter
        (fun c => !(screenerExclude.contains c)) := by
      apply List.mem_filter.mpr
      exact ⟨hmem, by decide⟩
    exact (H3 _ hfm).2 rfl
  obtain ⟨scrK, hscrK, hscrKh⟩ := withEmailKey_ok _ H2
    (contains_eq_false_of_not_mem hskeymem)
  have hko : ∀ n ∈ (["EMAIL_key"] : List String), scrK.header.count n = 1 := by
    intro n hn
    have hn1 : n = "EMAIL_key" := by simpa using hn
    subst hn1
    rw [hscrKh, List.count_append, List.count_eq_zero_of_not_mem hskeymem]
    decide
  obtain ⟨scrKeyOnly, hkeyEq, hkeyh⟩ := selectCols_count_one scrK ["EMAIL_key"] hko
  have hrs : (hconcat scrKeyOnly scrAnswers).header
      = "EMAIL_key" :: scrAnswers.header := by
    show scrKeyOnly.header ++ scrAnswers.header = _
    rw [hkeyh]
    rfl
  have hansNoKey : scrAnswers.header.count "EMAIL_key" = 0 :=
    List.count_eq_zero_of_not_mem (fun hmem => (hansKeep _ hmem).2.1 rfl)
  have hmergeL : calK.header.count "EMAIL_key" = 1 := by
    rw [hcalKh]
    decide
  have hmergeR : (hconcat scrKeyOnly scrAnswers).header.count "EMAIL_key" = 1 := by
    rw [hrs]
    rw [List.count_cons]
    rw [hansNoKey]
    simp
  have hsuf1 : suffixHdr calK.header (hconcat scrKeyOnly scrAnswers).header
      "EMAIL_key" "_x" = calK.header := by
    apply suffixHdr_id
    intro n hn hne
    apply contains_eq_false_of_not_mem
    intro hmem
    rw [hrs] at hmem
    rcases List.mem_cons.mp hmem with rfl | hmem2
    · exact hne rfl
    · have h3 := hansKeep n hmem2
      rw [hcalKh] at hn
      rcases List.mem_append.mp hn with hk | hk
      · exact h3.1 hk
      · exact hne (by simpa using hk)
  have hsuf2 : suffixHdr (hconcat scrKeyOnly scrAnswers).header calK.header
      "EMAIL_key" "_y" = (hconcat scrKeyOnly scrAnswers).header := by
    apply suffixHdr_id
    intro n hn hne
    apply contains_eq_false_of_not_mem
    intro hmem
    rw [hcalKh] at hmem
    rw [hrs] at hn
    rcases List.mem_cons.mp hn with rfl | hn2
    · exact hne rfl
    · have h3 := hansKeep n hn2
      rcases List.mem_append.mp hmem with hk | hk
      · exact h3.1 hk
      · exact h3.2.1 (by simpa using hk)
  obtain ⟨li, ri, hli, hri, hmerge⟩ := mergeInner_ok hmergeL hmergeR hsuf1 hsuf2
  have hri0 : ri = 0 := by
    have h0mem : 0 ∈ colPositions (hconcat scrKeyOnly scrAnswers).header
        "EMAIL_key" := by
      unfold colPositions
      apply List.mem_filter.mpr
      constructor
      · rw [List.mem_range, hrs]
        simp
      · rw [hrs]
        simp
    rw [hri] at h0mem
    have := List.mem_singleton.mp h0mem
    omega
  subst hri0
  have hMh : (calK.header ++ ((hconcat scrKeyOnly scrAnswers).header.eraseIdx 0))
      = (keepCalendar ++ ["EMAIL_key"]) ++ scrAnswers.header := by
    rw [hcalKh, hrs]
    rfl
  have hT1 : (dropAll ⟨calK.header
        ++ ((hconcat scrKeyOnly scrAnswers).header.eraseIdx 0),
        mergeRows calK.rows (hconcat scrKeyOnly scrAnswers).rows li 0⟩
      ["EMAIL_key"]).header = keepCalendar ++ scrAnswers.header := by
    rw [dropAll_header]
    show (calK.header ++ ((hconcat scrKeyOnly scrAnswers).header.eraseIdx 0)).filter
        (fun c => !((["EMAIL_key"] : List String).contains c))
      = keepCalendar ++ scrAnswers.header
    rw [hMh, List.filter_append, List.filter_append]
    have e1 : keepCalendar.filter
        (fun c => !((["EMAIL_key"] : List String).contains c)) = keepCalendar := by
      decide
    have e2 : (["EMAIL_key"] : List String).filter
        (fun c => !((["EMAIL_key"] : List String).contains c)) = [] := by
      decide
    have e3 : scrAnswers.header.filter
        (fun c => !((["EMAIL_key"] : List String).contains c)) = scrAnswers.header := by
      apply List.filter_eq_self.mpr
      intro a ha
      have hnm : a ∉ (["EMAIL_key"] : List String) := by
        simp only [List.mem_singleton]
        exact (hansKeep a ha).2.1
      rw [contains_eq_false_of_not_mem hnm]
      rfl
    rw [e1, e2, e3]
    simp
  have hT2 : (dropAll (dropAll ⟨calK.header
        ++ ((hconcat scrKeyOnly scrAnswers).header.eraseIdx 0),
        mergeRows calK.rows (hconcat scrKeyOnly scrAnswers).rows li 0⟩
      ["EMAIL_key"]) ["EMAIL"]).header = headCols ++ scrAnswers.header := by
    rw [dropAll_header, hT1, List.filter_append]
    have e1 : keepCalendar.filter
        (fun c => !((["EMAIL"] : List String).contains c)) = headCols := by
      decide
    have e3 : scrAnswers.header.filter
        (fun c => !((["EMAIL"] : List String).contains c)) = scrAnswers.header := by
      apply List.filter_eq_self.mpr
      intro a ha
      have hnm : a ∉ (["EMAIL"] : List String) := by
        simp only [List.mem_singleton]
        intro he
        exact (hansKeep a ha).2.2 (he ▸ (by decide : "EMAIL" ∈ screenerExclude))
      rw [contains_eq_false_of_not_mem hnm]
      rfl
    rw [e1, e3]
  have hansNoUser : scrAnswers.header.count "User name" = 0 :=
    List.count_eq_zero_of_not_mem
      (fun hmem => (hansKeep _ hmem).1 (by decide : "User name" ∈ keepCalendar))
  have hcount : (dropAll (dropAll ⟨calK.header
        ++ ((hconcat scrKeyOnly scrAnswers).header.eraseIdx 0),
        mergeRows calK.rows (hconcat scrKeyOnly scrAnswers).rows li 0⟩
      ["EMAIL_key"]) ["EMAIL"]).header.count "User name" = 1 := by
    rw [hT2, List.count_append, hansNoUser]
    decide
  obtain ⟨m2, hnorm, hm2h⟩ := applyNormalizeUser_ok _ hcount
  have hm2h2 : m2.header = headCols ++ scrAnswers.header := by
    rw [hm2h, hT2]
  have hm2mem1 : "User name" ∈ m2.header := by
    rw [hm2h2]
    exact List.mem_append_left _ (by decide)
  have hm2mem2 : "Start Time" ∈ m2.header := by
    rw [hm2h2]
    exact List.mem_append_left _ (by decide)
  obtain ⟨m3, hdedup, hm3h⟩ := dropDupsFirst_ok m2 hm2mem1 hm2mem2
  have hm3mem : ∀ n ∈ headCols, n ∈ m3.header := by
    intro n hn
    rw [hm3h, hm2h2]
    exact List.mem_append_left _ hn
  obtain ⟨tfin, hre⟩ := reorderHeadTail_ok m3 hm3mem
  refine ⟨tfin, ?_⟩
  simp only [compile, bind, Except.bind, hsel, hans2, hcalK, hscrK, hkeyEq, hmerge,
    hnorm, hdedup, hre]

/-- C4 amended witness: the specification's worked example satisfies
the resolution conditions, so its compile run raises no error. -/
theorem claim_C4_amended_witness :
    ∃ t, compile
      { header := ["Tester", "Tester Email", "Start Time", "End Time"],
        rows := [[some (codes "Ann"), some (codes "ann@x.com"),
                  some (codes "2024-01-01T10:00"), some (codes "2024-01-01T10:30")]] }
      { header := ["Email", "Status", "Q1 Rating"],
        rows := [[some (codes "ann@X.com"), some (codes "Completed"),
                  some (codes "5")]] } = Except.ok t :=
  claim_C4_amended
    { header := ["Tester", "Tester Email", "Start Time", "End Time"],
      rows := [[some (codes "Ann"), some (codes "ann@x.com"),
                some (codes "2024-01-01T10:00"), some (codes "2024-01-01T10:30")]] }
    { header := ["Email", "Status", "Q1 Rating"],
      rows := [[some (codes "ann@X.com"), some (codes "Completed"),
                some (codes "5")]] }
    (by decide) (by decide) (by decide)

end CalScreener
